import Mathlib

/-!
Verification of the bounded blocking queue and its producer/consumer
drivers (src/mq.py, src/demo-mq.py).

The Python class `BoundedBlockingQueue` keeps a FIFO buffer (`deque`), a
fixed `_maxsize` set at construction, a lock and two condition variables.
We embed the observable state as a structure holding the capacity and the
buffer list (head of the list = head of the deque, `append` adds at the
tail, `popleft` removes the head).  Blocking operations are modelled as
`Option`-valued functions: `none` means the call waits (the calling thread
blocks) and the state is unchanged until another thread acts.

Python is dynamically typed: `__init__` only checks `maxsize <= 0`, so a
caller may pass a non-integer such as `2.5`.  We therefore model the
capacity as a rational number; integer capacities embed via the cast
`(c : Nat) -> Rat`.
-/

namespace MQ

/-- State of a `BoundedBlockingQueue`: the fixed capacity `_maxsize` and
the buffer deque `_queue` (head at the front). -/
structure BoundedBlockingQueue (α : Type) where
  maxsize : ℚ
  queue : List α
deriving DecidableEq

/-- Embedding of `BoundedBlockingQueue.__init__`: raises
`ValueError("maxsize must be > 0")` when `maxsize <= 0`, otherwise the
queue starts with an empty buffer. -/
def init (α : Type) (maxsize : ℚ) : Except String (BoundedBlockingQueue α) :=
  if maxsize ≤ 0 then Except.error "maxsize must be > 0"
  else Except.ok ⟨maxsize, []⟩

/-- The empty queue of a given capacity, the successful result of
`__init__`. -/
def emptyQueue (α : Type) (c : ℚ) : BoundedBlockingQueue α := ⟨c, []⟩

/-- Embedding of `put`: while `len(self._queue) >= self._maxsize` the call
waits on `not_full` (modelled as `none`); otherwise the item is appended
at the tail of the buffer. -/
def put (q : BoundedBlockingQueue α) (item : α) :
    Option (BoundedBlockingQueue α) :=
  if (q.queue.length : ℚ) ≥ q.maxsize then none
  else some ⟨q.maxsize, q.queue ++ [item]⟩

/-- Embedding of `get`: while the buffer is empty the call waits on
`not_empty` (modelled as `none`); otherwise `popleft` removes and returns
the head. -/
def get (q : BoundedBlockingQueue α) :
    Option (α × BoundedBlockingQueue α) :=
  match q.queue with
  | [] => none
  | item :: rest => some (item, ⟨q.maxsize, rest⟩)

/-- Embedding of `qsize`: the current length of the buffer. -/
def qsize (q : BoundedBlockingQueue α) : ℕ := q.queue.length

/-- A sequence of `put` calls with no interleaved `get`, each required to
succeed without blocking (`none` propagates). -/
def putAll (q : BoundedBlockingQueue α) :
    List α → Option (BoundedBlockingQueue α)
  | [] => some q
  | x :: xs =>
    match put q x with
    | none => none
    | some q2 => putAll q2 xs

/-- A sequence of `n` `get` calls with no interleaved `put`, collecting the
returned items in call order; `none` propagates. -/
def getN (q : BoundedBlockingQueue α) :
    ℕ → Option (List α × BoundedBlockingQueue α)
  | 0 => some ([], q)
  | n + 1 =>
    match get q with
    | none => none
    | some (x, q2) =>
      match getN q2 n with
      | none => none
      | some (xs, q3) => some (x :: xs, q3)

end MQ

namespace MQ

/-- A successful `put` appends at the tail; this is the branch taken as
soon as the buffer is strictly below capacity. -/
lemma put_of_lt (q : BoundedBlockingQueue α) (x : α)
    (h : (q.queue.length : ℚ) < q.maxsize) :
    put q x = some ⟨q.maxsize, q.queue ++ [x]⟩ := by
  unfold put
  rw [if_neg (not_le.mpr h)]

/-- C3: for every queue state with fewer buffered items than the capacity,
`put(item)` appends `item` at the tail of the buffer, the observable size
grows by exactly one, and the capacity is unchanged. -/
theorem put_postcondition (q : BoundedBlockingQueue α) (x : α)
    (h : (q.queue.length : ℚ) < q.maxsize) :
    ∃ q2, put q x = some q2 ∧ q2.queue = q.queue ++ [x] ∧
      qsize q2 = qsize q + 1 ∧ q2.maxsize = q.maxsize :=
  ⟨⟨q.maxsize, q.queue ++ [x]⟩, put_of_lt q x h, rfl, by simp [qsize], rfl⟩

/-- Witness for C3 at the queue of capacity 3 holding `[7]`. -/
theorem put_postcondition_witness :
    ∃ q2, put (⟨3, [(7 : ℤ)]⟩ : BoundedBlockingQueue ℤ) 9 = some q2 ∧
      q2.queue = [7] ++ [9] ∧
      qsize q2 = qsize (⟨3, [(7 : ℤ)]⟩ : BoundedBlockingQueue ℤ) + 1 ∧
      q2.maxsize = 3 :=
  put_postcondition ⟨3, [(7 : ℤ)]⟩ 9 (by norm_num)

/-- C4: for every queue state with a non-empty buffer, `get()` returns the
head (oldest) element, the new buffer is the old buffer with the head
removed, and the observable size shrinks by exactly one. -/
theorem get_postcondition (q : BoundedBlockingQueue α) (x : α) (xs : List α)
    (h : q.queue = x :: xs) :
    get q = some (x, ⟨q.maxsize, xs⟩) ∧
      qsize (⟨q.maxsize, xs⟩ : BoundedBlockingQueue α) + 1 = qsize q := by
  obtain ⟨m, buf⟩ := q
  cases h
  exact ⟨rfl, by simp [qsize]⟩

/-- Witness for C4 at the queue of capacity 3 holding `[7, 9]`. -/
theorem get_postcondition_witness :
    get (⟨3, [(7 : ℤ), 9]⟩ : BoundedBlockingQueue ℤ) = some (7, ⟨3, [9]⟩) ∧
      qsize (⟨3, [(9 : ℤ)]⟩ : BoundedBlockingQueue ℤ) + 1 =
        qsize (⟨3, [(7 : ℤ), 9]⟩ : BoundedBlockingQueue ℤ) :=
  get_postcondition ⟨3, [(7 : ℤ), 9]⟩ 7 [9] rfl

/-- C5: constructing with capacity at most 0 raises the `ValueError` and
produces no queue, while any positive capacity yields an empty queue
(size 0) whose capacity is the given value. -/
theorem capacity_validation (α : Type) (m : ℚ) :
    (m ≤ 0 → init α m = Except.error "maxsize must be > 0") ∧
    (0 < m → init α m = Except.ok (emptyQueue α m) ∧
      (emptyQueue α m).maxsize = m ∧ qsize (emptyQueue α m) = 0) := by
  constructor
  · intro h
    simp [init, h]
  · intro h
    exact ⟨by simp [init, emptyQueue, not_le.mpr h], rfl, rfl⟩

/-- Witness for C5 at capacities `-1` (rejected) and `3` (accepted). -/
theorem capacity_validation_witness :
    init ℤ (-1) = Except.error "maxsize must be > 0" ∧
    init ℤ 3 = Except.ok (emptyQueue ℤ 3) :=
  ⟨(capacity_validation ℤ (-1)).1 (by norm_num),
   ((capacity_validation ℤ 3).2 (by norm_num)).1⟩

/-- C6 counterexample: the constructor accepts the positive non-integer
capacity `5 / 2 = 2.5` (its check is only `maxsize <= 0`), so the claim
that non-integer capacities are rejected is false. -/
theorem capacity_nonint_counterexample :
    0 < (5 / 2 : ℚ) ∧ (5 / 2 : ℚ).den ≠ 1 ∧
    init ℤ (5 / 2) = Except.ok (emptyQueue ℤ (5 / 2)) := by
  refine ⟨by norm_num, by norm_num, ?_⟩
  norm_num [init, emptyQueue]

/-- C6 amended: the `ValueError` is raised at construction exactly when
the supplied capacity is at most 0; any positive capacity, integer or
not, is accepted and produces an empty queue with that capacity. -/
theorem capacity_nonint_amended (α : Type) (m : ℚ) :
    ((∃ e, init α m = Except.error e) ↔ m ≤ 0) ∧
    (0 < m → init α m = Except.ok (emptyQueue α m)) := by
  constructor
  · by_cases h : m ≤ 0
    · simp [init, h]
    · simp [init, h, emptyQueue]
  · intro h
    simp [init, emptyQueue, not_le.mpr h]

/-- Witness for the amended C6 at the non-integer capacity `5 / 2`. -/
theorem capacity_nonint_amended_witness :
    init ℤ (5 / 2) = Except.ok (emptyQueue ℤ (5 / 2)) :=
  (capacity_nonint_amended ℤ (5 / 2)).2 (by norm_num)

/-- When the buffer together with the items to insert fits under the
capacity, the whole sequence of `put` calls succeeds and appends the items
at the tail in order. -/
lemma putAll_ok : ∀ (items : List α) (q : BoundedBlockingQueue α),
    ((q.queue.length : ℚ) + items.length ≤ q.maxsize) →
    putAll q items = some ⟨q.maxsize, q.queue ++ items⟩ := by
  intro items
  induction items with
  | nil =>
    intro q _
    simp [putAll]
  | cons x xs ih =>
    intro q h
    have hlt : (q.queue.length : ℚ) < q.maxsize := by
      have hx : (0 : ℚ) ≤ (xs.length : ℚ) := by positivity
      have : (q.queue.length : ℚ) + (1 + xs.length) ≤ q.maxsize := by
        simpa [add_comm, add_left_comm] using h
      linarith
    have h2 : (((⟨q.maxsize, q.queue ++ [x]⟩ :
        BoundedBlockingQueue α).queue.length : ℚ) + (xs.length : ℚ) ≤
        (⟨q.maxsize, q.queue ++ [x]⟩ : BoundedBlockingQueue α).maxsize) := by
      simp only [List.length_append, List.length_cons, List.length_nil]
      push_cast
      simp only [List.length_cons] at h
      push_cast at h
      linarith
    calc putAll q (x :: xs)
        = putAll ⟨q.maxsize, q.queue ++ [x]⟩ xs := by
          simp [putAll, put_of_lt q x hlt]
      _ = some ⟨q.maxsize, q.queue ++ (x :: xs)⟩ := by
          rw [ih _ h2]
          simp

/-- Draining the first `xs.length` items of a buffer `xs ++ ys` returns
exactly `xs` in order and leaves `ys`. -/
lemma getN_split : ∀ (xs : List α) (m : ℚ) (ys : List α),
    getN ⟨m, xs ++ ys⟩ xs.length = some (xs, ⟨m, ys⟩) := by
  intro xs
  induction xs with
  | nil => intro m ys; simp [getN]
  | cons x xs ih =>
    intro m ys
    simp [getN, get, ih]

/-- C1: starting from a freshly constructed queue of capacity `c > 0`,
putting at most `c` items with no interleaved `get` succeeds, the buffer
then holds exactly those items, and the same number of `get` calls with no
interleaved `put` returns them in the same order, leaving the queue
empty. -/
theorem fifo_law (c : ℕ) (hc : 0 < c) (items : List α)
    (h : items.length ≤ c) :
    ∃ q2, putAll (emptyQueue α (c : ℚ)) items = some q2 ∧
      q2.queue = items ∧
      getN q2 items.length = some (items, emptyQueue α (c : ℚ)) := by
  have h1 : (((emptyQueue α (c : ℚ)).queue.length : ℚ) + items.length ≤
      (emptyQueue α (c : ℚ)).maxsize) := by
    simp only [emptyQueue, List.length_nil, Nat.cast_zero, zero_add]
    exact_mod_cast h
  refine ⟨⟨(c : ℚ), items⟩, ?_, rfl, ?_⟩
  · have := putAll_ok items (emptyQueue α (c : ℚ)) h1
    simpa [emptyQueue] using this
  · have := getN_split items (c : ℚ) []
    simpa [emptyQueue] using this

/-- Witness for C1 with capacity 3 and items `[4, 5, 6]`. -/
theorem fifo_law_witness :
    ∃ q2, putAll (emptyQueue ℤ ((3 : ℕ) : ℚ)) [4, 5, 6] = some q2 ∧
      q2.queue = [4, 5, 6] ∧
      getN q2 ([(4 : ℤ), 5, 6].length) =
        some ([4, 5, 6], emptyQueue ℤ ((3 : ℕ) : ℚ)) :=
  fifo_law 3 (by norm_num) [4, 5, 6] (by norm_num)

/-- One queue operation issued by a client: `put item`, `get`, or
`qsize`. -/
inductive Op (α : Type) where
  | putOp : α → Op α
  | getOp : Op α
  | qsizeOp : Op α

/-- Effect of one operation on the queue state.  A `put` on a full queue
and a `get` on an empty queue wait, leaving the state unchanged (the call
is still pending); `qsize` only reads. -/
def step (q : BoundedBlockingQueue α) : Op α → BoundedBlockingQueue α
  | Op.putOp item =>
    match put q item with
    | none => q
    | some q2 => q2
  | Op.getOp =>
    match get q with
    | none => q
    | some (_, q2) => q2
  | Op.qsizeOp => q

/-- State reached after a sequence of operations. -/
def run (q : BoundedBlockingQueue α) (ops : List (Op α)) :
    BoundedBlockingQueue α :=
  ops.foldl step q

/-- Characterisation of a successful `put`. -/
lemma put_eq_some (q : BoundedBlockingQueue α) (x : α)
    (q2 : BoundedBlockingQueue α) (h : put q x = some q2) :
    q2 = ⟨q.maxsize, q.queue ++ [x]⟩ ∧ (q.queue.length : ℚ) < q.maxsize := by
  by_cases hc : (q.queue.length : ℚ) ≥ q.maxsize
  · simp [put, hc] at h
  · simp [put, hc] at h
    exact ⟨h.symm, lt_of_not_ge hc⟩

/-- Characterisation of a successful `get`. -/
lemma get_eq_some (q : BoundedBlockingQueue α) (x : α)
    (q2 : BoundedBlockingQueue α) (h : get q = some (x, q2)) :
    q.queue = x :: q2.queue ∧ q2.maxsize = q.maxsize := by
  obtain ⟨m, buf⟩ := q
  cases buf with
  | nil => simp [get] at h
  | cons a rest =>
    simp only [get] at h
    obtain ⟨h1, h2⟩ := Prod.mk.injEq .. ▸ Option.some.injEq .. ▸ h
    subst h1
    subst h2
    exact ⟨rfl, rfl⟩

/-- A single step preserves the capacity field and the occupancy bound. -/
lemma step_inv (c : ℕ) (q : BoundedBlockingQueue α) (op : Op α)
    (h1 : q.maxsize = (c : ℚ)) (h2 : q.queue.length ≤ c) :
    (step q op).maxsize = (c : ℚ) ∧ (step q op).queue.length ≤ c := by
  cases op with
  | putOp item =>
    cases hp : put q item with
    | none => simp only [step, hp]; exact ⟨h1, h2⟩
    | some q2 =>
      obtain ⟨he, hlt⟩ := put_eq_some q item q2 hp
      rw [h1] at hlt
      have hlen : q.queue.length < c := by exact_mod_cast hlt
      subst he
      simp only [step, hp]
      exact ⟨h1, by simp; omega⟩
  | getOp =>
    cases hg : get q with
    | none => simp only [step, hg]; exact ⟨h1, h2⟩
    | some p =>
      obtain ⟨x, q2⟩ := p
      obtain ⟨hq, hm⟩ := get_eq_some q x q2 hg
      simp only [step, hg]
      refine ⟨hm.trans h1, ?_⟩
      have : q.queue.length = q2.queue.length + 1 := by rw [hq]; simp
      omega
  | qsizeOp => exact ⟨h1, h2⟩

/-- The capacity field and the occupancy bound hold in every reachable
state. -/
lemma run_inv (c : ℕ) : ∀ (ops : List (Op α))
    (q : BoundedBlockingQueue α),
    q.maxsize = (c : ℚ) → q.queue.length ≤ c →
    (run q ops).maxsize = (c : ℚ) ∧ (run q ops).queue.length ≤ c := by
  intro ops
  induction ops with
  | nil => intro q h1 h2; exact ⟨h1, h2⟩
  | cons op ops ih =>
    intro q h1 h2
    obtain ⟨g1, g2⟩ := step_inv c q op h1 h2
    simpa [run, List.foldl_cons] using ih (step q op) g1 g2

/-- C2: in every state reachable from a fresh queue of capacity `c > 0` by
any sequence of `put`, `get` and `qsize` operations, the buffer length
stays in `[0, c]`, `qsize` stays in `[0, c]`, `put` refuses to insert
(waits) when the buffer holds `c` items, and `get` refuses to remove
(waits) when the buffer is empty. -/
theorem bounded_occupancy (c : ℕ) (hc : 0 < c) (ops : List (Op α)) :
    (run (emptyQueue α (c : ℚ)) ops).queue.length ≤ c ∧
    qsize (run (emptyQueue α (c : ℚ)) ops) ≤ c ∧
    (∀ x, (run (emptyQueue α (c : ℚ)) ops).queue.length = c →
      put (run (emptyQueue α (c : ℚ)) ops) x = none) ∧
    ((run (emptyQueue α (c : ℚ)) ops).queue = [] →
      get (run (emptyQueue α (c : ℚ)) ops) = none) := by
  obtain ⟨hm, hl⟩ := run_inv c ops (emptyQueue α (c : ℚ)) rfl
    (by simp [emptyQueue])
  refine ⟨hl, hl, ?_, ?_⟩
  · intro x hx
    unfold put
    rw [if_pos (by rw [hm, hx])]
  · intro hq
    unfold get
    rw [hq]

/-- Witness for C2 with capacity 2 and an operation sequence that
overfills, drains, and queries the queue. -/
theorem bounded_occupancy_witness :
    (run (emptyQueue ℤ ((2 : ℕ) : ℚ))
      [Op.putOp 5, Op.putOp 6, Op.putOp 7, Op.getOp, Op.qsizeOp,
        Op.getOp, Op.getOp]).queue.length ≤ 2 ∧
    qsize (run (emptyQueue ℤ ((2 : ℕ) : ℚ))
      [Op.putOp 5, Op.putOp 6, Op.putOp 7, Op.getOp, Op.qsizeOp,
        Op.getOp, Op.getOp]) ≤ 2 ∧
    (∀ x, (run (emptyQueue ℤ ((2 : ℕ) : ℚ))
      [Op.putOp 5, Op.putOp 6, Op.putOp 7, Op.getOp, Op.qsizeOp,
        Op.getOp, Op.getOp]).queue.length = 2 →
      put (run (emptyQueue ℤ ((2 : ℕ) : ℚ))
        [Op.putOp 5, Op.putOp 6, Op.putOp 7, Op.getOp, Op.qsizeOp,
          Op.getOp, Op.getOp]) x = none) ∧
    ((run (emptyQueue ℤ ((2 : ℕ) : ℚ))
      [Op.putOp 5, Op.putOp 6, Op.putOp 7, Op.getOp, Op.qsizeOp,
        Op.getOp, Op.getOp]).queue = [] →
      get (run (emptyQueue ℤ ((2 : ℕ) : ℚ))
        [Op.putOp 5, Op.putOp 6, Op.putOp 7, Op.getOp, Op.qsizeOp,
          Op.getOp, Op.getOp]) = none) :=
  bounded_occupancy 2 (by norm_num)
    [Op.putOp 5, Op.putOp 6, Op.putOp 7, Op.getOp, Op.qsizeOp,
      Op.getOp, Op.getOp]

/-- A Python object: a reference identity (`id`) together with its value.
The consumer compares `item is self._sentinel`, which is a comparison of
identities, never of values. -/
structure PyObj (V : Type) where
  id : ℕ
  val : V
deriving DecidableEq

/-- Loop body of `Consumer.run` over the remaining buffer: each iteration
performs one `get` (head removal), stops when the returned item is the
sentinel by identity, and otherwise appends the item to `dest`.  Returns
`none` when a `get` blocks forever on an empty queue, otherwise the final
destination list and the remaining buffer. -/
def consumerGo (sentinel : PyObj V) (c : ℚ) (dest : List (PyObj V)) :
    List (PyObj V) → Option (List (PyObj V) × BoundedBlockingQueue (PyObj V))
  | [] => none
  | item :: rest =>
    if item.id = sentinel.id then some (dest, ⟨c, rest⟩)
    else consumerGo sentinel c (dest ++ [item]) rest

/-- Embedding of `Consumer.run` against a queue with no concurrent
producer: repeatedly `get`, break on the sentinel (identity comparison),
otherwise append to the destination container. -/
def consumerRun (sentinel : PyObj V) (q : BoundedBlockingQueue (PyObj V))
    (dest : List (PyObj V)) :
    Option (List (PyObj V) × BoundedBlockingQueue (PyObj V)) :=
  consumerGo sentinel q.maxsize dest q.queue

/-- Embedding of `Producer.run`: one `put` per source item in source
order, then one final `put` of the sentinel. -/
def producerRun (source : List α) (sentinel : α)
    (q : BoundedBlockingQueue α) : Option (BoundedBlockingQueue α) :=
  match putAll q source with
  | none => none
  | some q2 => put q2 sentinel

/-- Running the consumer loop over a buffer of non-sentinel items followed
by the sentinel drains the payload into `dest` in order and stops at the
sentinel. -/
lemma consumerGo_payload : ∀ (items : List (PyObj V))
    (sentinel : PyObj V) (c : ℚ) (dest tail : List (PyObj V)),
    (∀ x ∈ items, x.id ≠ sentinel.id) →
    consumerGo sentinel c dest (items ++ sentinel :: tail) =
      some (dest ++ items, ⟨c, tail⟩) := by
  intro items
  induction items with
  | nil =>
    intro sentinel c dest tail _
    simp [consumerGo]
  | cons x xs ih =>
    intro sentinel c dest tail h
    have hx : x.id ≠ sentinel.id := h x (List.mem_cons_self x xs)
    have hxs : ∀ y ∈ xs, y.id ≠ sentinel.id :=
      fun y hy => h y (List.mem_cons_of_mem x hy)
    simp only [List.cons_append, consumerGo, if_neg hx]
    rw [List.append_eq, ih sentinel c (dest ++ [x]) tail hxs]
    simp

/-- C7: a consumer run against a queue holding `N` payload items (none of
them the sentinel, by identity) followed by one sentinel terminates, its
destination collection is exactly those `N` items in order, and the
sentinel itself is not in the destination. -/
theorem sentinel_termination (sentinel : PyObj V)
    (items : List (PyObj V)) (c : ℚ)
    (h : ∀ x ∈ items, x.id ≠ sentinel.id) :
    consumerRun sentinel ⟨c, items ++ [sentinel]⟩ [] =
      some (items, ⟨c, []⟩) ∧ sentinel ∉ items := by
  constructor
  · have := consumerGo_payload items sentinel c [] [] h
    simpa [consumerRun] using this
  · intro hmem
    exact h sentinel hmem rfl

/-- Witness for C7 with two payload objects and a sentinel of distinct
identity. -/
theorem sentinel_termination_witness :
    consumerRun (⟨0, (0 : ℤ)⟩ : PyObj ℤ)
      ⟨10, [⟨1, 4⟩, ⟨2, 9⟩] ++ [⟨0, 0⟩]⟩ [] =
      some ([⟨1, 4⟩, ⟨2, 9⟩], ⟨10, []⟩) ∧
    (⟨0, (0 : ℤ)⟩ : PyObj ℤ) ∉ [(⟨1, 4⟩ : PyObj ℤ), ⟨2, 9⟩] :=
  sentinel_termination ⟨0, 0⟩ [⟨1, 4⟩, ⟨2, 9⟩] 10 (by decide)

/-- C8: starting from an empty queue whose capacity is at least the
source length plus one, the producer performs all its `put` calls without
blocking and leaves the buffer equal to the source sequence followed by
the sentinel. -/
theorem producer_contract (source : List α) (sentinel : α) (c : ℕ)
    (h : source.length + 1 ≤ c) :
    producerRun source sentinel (emptyQueue α (c : ℚ)) =
      some ⟨(c : ℚ), source ++ [sentinel]⟩ := by
  have h1 : (((emptyQueue α (c : ℚ)).queue.length : ℚ) +
      (source.length : ℚ) ≤ (emptyQueue α (c : ℚ)).maxsize) := by
    simp only [emptyQueue, List.length_nil, Nat.cast_zero, zero_add]
    exact_mod_cast Nat.le_of_succ_le h
  have h2 := putAll_ok source (emptyQueue α (c : ℚ)) h1
  unfold producerRun
  rw [h2]
  simp only [emptyQueue, List.nil_append]
  have hlt : ((source.length : ℚ)) < (c : ℚ) := by
    exact_mod_cast h
  have := put_of_lt (⟨(c : ℚ), source⟩ : BoundedBlockingQueue α) sentinel hlt
  simpa using this

/-- Witness for C8 with source `[4, 5, 6]`, sentinel `0` and capacity
4. -/
theorem producer_contract_witness :
    producerRun [4, 5, 6] 0 (emptyQueue ℤ ((4 : ℕ) : ℚ)) =
      some ⟨((4 : ℕ) : ℚ), [4, 5, 6] ++ [0]⟩ :=
  producer_contract [4, 5, 6] 0 4 (by norm_num)

/-- C10: the consumer stops only on the sentinel object itself.  A payload
item that is equal to the sentinel by value but is a different object
(different identity) is not treated as the sentinel: the consumer appends
it to the destination and keeps consuming. -/
theorem sentinel_identity_only (sentinel x : PyObj V)
    (hval : x.val = sentinel.val) (hid : x.id ≠ sentinel.id)
    (c : ℚ) (rest dest : List (PyObj V)) :
    consumerRun sentinel ⟨c, x :: rest⟩ dest =
      consumerRun sentinel ⟨c, rest⟩ (dest ++ [x]) := by
  simp [consumerRun, consumerGo, hid]

/-- Witness for C10: a payload object with the same value `7` as the
sentinel but a different identity is consumed, not treated as the
sentinel. -/
theorem sentinel_identity_only_witness :
    consumerRun (⟨0, (7 : ℤ)⟩ : PyObj ℤ) ⟨10, [⟨1, 7⟩, ⟨0, 7⟩]⟩ [] =
      consumerRun (⟨0, (7 : ℤ)⟩ : PyObj ℤ) ⟨10, [⟨0, 7⟩]⟩ ([] ++ [⟨1, 7⟩]) :=
  sentinel_identity_only ⟨0, 7⟩ ⟨1, 7⟩ rfl (by decide) 10 [⟨0, 7⟩] []

/-- The two threads of `run_producer_consumer`. -/
inductive Tid where
  | producer : Tid
  | consumer : Tid
deriving DecidableEq

/-- Joint state of the demo system: the shared queue, the items the
producer still has to `put` (its source suffix, with the sentinel already
appended as the final `put`), the consumer destination container, and
whether the consumer loop is still running. -/
structure SysState (V : Type) where
  queue : BoundedBlockingQueue (PyObj V)
  prodRem : List (PyObj V)
  dest : List (PyObj V)
  consRunning : Bool
deriving DecidableEq

/-- One scheduler step: the chosen thread attempts its next action.  A
thread whose `put`/`get` would block (condition wait) leaves the state
unchanged; a finished thread does nothing. -/
def sysStep (sentinel : PyObj V) (st : SysState V) : Tid → SysState V
  | Tid.producer =>
    match st.prodRem with
    | [] => st
    | x :: rest =>
      match put st.queue x with
      | none => st
      | some q2 => ⟨q2, rest, st.dest, st.consRunning⟩
  | Tid.consumer =>
    match st.consRunning with
    | false => st
    | true =>
      match get st.queue with
      | none => st
      | some (item, q2) =>
        if item.id = sentinel.id then ⟨q2, st.prodRem, st.dest, false⟩
        else ⟨q2, st.prodRem, st.dest ++ [item], true⟩

/-- Execution of the system under a given interleaving of the two
threads. -/
def sysRun (sentinel : PyObj V) (st : SysState V) (sched : List Tid) :
    SysState V :=
  sched.foldl (sysStep sentinel) st

/-- Initial state of `run_producer_consumer`: fresh queue, producer about
to put the whole source followed by the sentinel, empty destination,
consumer loop running. -/
def initState (c : ℚ) (source : List (PyObj V)) (sentinel : PyObj V) :
    SysState V :=
  ⟨emptyQueue (PyObj V) c, source ++ [sentinel], [], true⟩

/-- Both threads have completed: the producer has nothing left to put and
the consumer loop has exited. -/
def Terminal (st : SysState V) : Prop :=
  st.prodRem = [] ∧ st.consRunning = false

/-- System invariant: the queue capacity is fixed; while the consumer is
running, destination, buffer and pending puts concatenate to the full put
sequence and the destination holds no sentinel; once the consumer has
stopped, the whole source has been transferred and nothing is left. -/
def SysInv (c : ℚ) (source : List (PyObj V)) (sentinel : PyObj V)
    (st : SysState V) : Prop :=
  st.queue.maxsize = c ∧
  (st.consRunning = true →
    st.dest ++ st.queue.queue ++ st.prodRem = source ++ [sentinel] ∧
    ∀ x ∈ st.dest, x.id ≠ sentinel.id) ∧
  (st.consRunning = false →
    st.dest = source ∧ st.queue.queue = [] ∧ st.prodRem = [])

/-- Splitting a concatenation at its unique marked element: if a list
splits both as `a ++ x :: b` with the mark on `x` and nowhere in `a`, and
as `c ++ [t]` with the mark nowhere in `c`, then `a = c` and `b = []`. -/
lemma payload_split (p : α → Prop) :
    ∀ (a c : List α) (x : α) (b : List α) (t : α),
      a ++ x :: b = c ++ [t] → p x → (∀ y ∈ a, ¬ p y) →
      (∀ y ∈ c, ¬ p y) → a = c ∧ b = [] := by
  intro a
  induction a with
  | nil =>
    intro c x b t heq hx _ hc
    cases c with
    | nil =>
      simp only [List.nil_append, List.cons.injEq] at heq
      exact ⟨rfl, heq.2⟩
    | cons e c2 =>
      simp only [List.nil_append, List.cons_append, List.cons.injEq] at heq
      exact absurd (heq.1 ▸ hx) (hc e (List.mem_cons_self e c2))
  | cons y a2 ih =>
    intro c x b t heq hx ha hc
    cases c with
    | nil =>
      simp only [List.cons_append, List.nil_append, List.cons.injEq] at heq
      exact absurd heq.2 (by simp)
    | cons e c2 =>
      simp only [List.cons_append, List.cons.injEq] at heq
      obtain ⟨h1, h2⟩ := heq
      obtain ⟨g1, g2⟩ := ih c2 x b t h2 hx
        (fun z hz => ha z (List.mem_cons_of_mem y hz))
        (fun z hz => hc z (List.mem_cons_of_mem e hz))
      exact ⟨by rw [h1, g1], g2⟩

/-- One scheduler step preserves the system invariant, provided no source
item shares the sentinel identity. -/
lemma sysStep_inv (c : ℚ) (source : List (PyObj V)) (sentinel : PyObj V)
    (hs : ∀ x ∈ source, x.id ≠ sentinel.id)
    (st : SysState V) (t : Tid) (h : SysInv c source sentinel st) :
    SysInv c source sentinel (sysStep sentinel st t) := by
  obtain ⟨q, rem, dest, running⟩ := st
  obtain ⟨h1, h2, h3⟩ := h
  cases t with
  | producer =>
    cases rem with
    | nil => exact ⟨h1, h2, h3⟩
    | cons x rest =>
      cases hp : put q x with
      | none => simp only [sysStep, hp]; exact ⟨h1, h2, h3⟩
      | some q2 =>
        obtain ⟨he, _⟩ := put_eq_some q x q2 hp
        subst he
        simp only [sysStep, hp]
        refine ⟨h1, ?_, ?_⟩
        · intro hr
          obtain ⟨e1, e2⟩ := h2 hr
          refine ⟨?_, e2⟩
          calc dest ++ (q.queue ++ [x]) ++ rest
              = dest ++ q.queue ++ (x :: rest) := by simp
            _ = source ++ [sentinel] := e1
        · intro hr
          obtain ⟨_, _, e3⟩ := h3 hr
          simp at e3
  | consumer =>
    cases running with
    | false => exact ⟨h1, h2, h3⟩
    | true =>
      cases hg : get q with
      | none => simp only [sysStep, hg]; exact ⟨h1, h2, h3⟩
      | some pr =>
        obtain ⟨item, q2⟩ := pr
        obtain ⟨hq, hm⟩ := get_eq_some q item q2 hg
        obtain ⟨e1, e2⟩ := h2 rfl
        by_cases hid : item.id = sentinel.id
        · simp only [sysStep, hg, if_pos hid]
          have e1b : dest ++ item :: (q2.queue ++ rem) =
              source ++ [sentinel] := by
            rw [hq] at e1
            simpa using e1
          obtain ⟨g1, g2⟩ := payload_split (fun y => y.id = sentinel.id)
            dest source item (q2.queue ++ rem) sentinel e1b hid e2 hs
          have gq : q2.queue = [] := by
            rcases List.append_eq_nil.mp g2 with ⟨ga, _⟩
            exact ga
          have gr : rem = [] := by
            rcases List.append_eq_nil.mp g2 with ⟨_, gb⟩
            exact gb
          refine ⟨hm.trans h1, ?_, ?_⟩
          · intro hr; cases hr
          · intro _; exact ⟨g1, gq, gr⟩
        · simp only [sysStep, hg, if_neg hid]
          refine ⟨hm.trans h1, ?_, ?_⟩
          · intro _
            constructor
            · rw [hq] at e1
              calc (dest ++ [item]) ++ q2.queue ++ rem
                  = dest ++ (item :: q2.queue) ++ rem := by simp
                _ = source ++ [sentinel] := e1
            · intro y hy
              rcases List.mem_append.mp hy with hy1 | hy2
              · exact e2 y hy1
              · rw [List.mem_singleton.mp hy2]
                exact hid
          · intro hr; cases hr

/-- The system invariant holds in every reachable state. -/
lemma sysRun_inv (c : ℚ) (source : List (PyObj V)) (sentinel : PyObj V)
    (hs : ∀ x ∈ source, x.id ≠ sentinel.id) :
    ∀ (sched : List Tid) (st : SysState V),
      SysInv c source sentinel st →
      SysInv c source sentinel (sysRun sentinel st sched) := by
  intro sched
  induction sched with
  | nil => intro st h; exact h
  | cons t sched ih =>
    intro st h
    simpa [sysRun, List.foldl_cons] using
      ih (sysStep sentinel st t) (sysStep_inv c source sentinel hs st t h)

/-- The initial state satisfies the system invariant. -/
lemma initState_inv (c : ℚ) (source : List (PyObj V))
    (sentinel : PyObj V) :
    SysInv c source sentinel (initState c source sentinel) := by
  refine ⟨rfl, ?_, ?_⟩
  · intro _
    exact ⟨by simp [initState, emptyQueue], by simp [initState]⟩
  · intro hr
    simp [initState] at hr

/-- In any reachable terminal state the destination equals the source and
the buffer is empty. -/
lemma sysRun_terminal (c : ℚ) (source : List (PyObj V))
    (sentinel : PyObj V) (hs : ∀ x ∈ source, x.id ≠ sentinel.id)
    (sched : List Tid)
    (hterm : Terminal (sysRun sentinel (initState c source sentinel) sched)) :
    (sysRun sentinel (initState c source sentinel) sched).dest = source ∧
    (sysRun sentinel (initState c source sentinel) sched).queue.queue
      = [] := by
  obtain ⟨_, _, h3⟩ :=
    sysRun_inv c source sentinel hs sched (initState c source sentinel)
      (initState_inv c source sentinel)
  obtain ⟨e1, e2, _⟩ := h3 hterm.2
  exact ⟨e1, e2⟩

/-- The concrete source container of `run_producer_consumer`:
`list(range(1, 21))`, each int a distinct Python object. -/
def demoSource : List (PyObj ℤ) :=
  (List.range' 1 20).map (fun k => ⟨k, (k : ℤ)⟩)

/-- The unique sentinel instance `object()` of the demo, with an identity
held by no source item. -/
def demoSentinel : PyObj ℤ := ⟨0, 0⟩

/-- Initial state of the demo: `BoundedBlockingQueue(maxsize=10)`, source
`[1..20]`, empty destination. -/
def demoInit : SysState ℤ := initState 10 demoSource demoSentinel

/-- A strictly alternating schedule that drives the demo to
completion. -/
def demoSched : List Tid :=
  (List.replicate 21 [Tid.producer, Tid.consumer]).flatten

/-- C9: in the demo system (source `[1..20]`, capacity 10, forcing both
sides to block), whenever a schedule lets both the producer and the
consumer run to completion, the destination container holds exactly the
values 1 through 20 in order and the queue size is 0; and at least one
schedule does complete both threads. -/
theorem end_to_end_transfer :
    (∀ sched : List Tid, Terminal (sysRun demoSentinel demoInit sched) →
      (sysRun demoSentinel demoInit sched).dest = demoSource ∧
      (sysRun demoSentinel demoInit sched).dest.map PyObj.val =
        (List.range' 1 20).map (fun k => (k : ℤ)) ∧
      qsize (sysRun demoSentinel demoInit sched).queue = 0) ∧
    ∃ sched : List Tid, Terminal (sysRun demoSentinel demoInit sched) := by
  have hs : ∀ x ∈ demoSource, x.id ≠ demoSentinel.id := by decide
  constructor
  · intro sched hterm
    obtain ⟨e1, e2⟩ :=
      sysRun_terminal 10 demoSource demoSentinel hs sched hterm
    refine ⟨e1, ?_, ?_⟩
    · unfold demoInit
      rw [e1]
      rfl
    · unfold demoInit
      simp [qsize, e2]
  · exact ⟨demoSched, rfl, rfl⟩

/-- Witness for C9 under the alternating schedule. -/
theorem end_to_end_transfer_witness :
    (sysRun demoSentinel demoInit demoSched).dest = demoSource ∧
    (sysRun demoSentinel demoInit demoSched).dest.map PyObj.val =
      (List.range' 1 20).map (fun k => (k : ℤ)) ∧
    qsize (sysRun demoSentinel demoInit demoSched).queue = 0 :=
  end_to_end_transfer.1 demoSched ⟨rfl, rfl⟩

end MQ

